import Mathlib

/-!
Verification of the baby-names ETL pipeline (scripts/step1.py, scripts/step2.py).

Shallow embedding conventions:
* Text is modelled as `List Char` (abbreviated `Str`); Python's
  `str.split(",")` and `str.splitlines()` become `splitSep ','` and
  `splitlines` below.  The csv writer's line terminator is abstracted to a
  single newline character.
* Machine integers are `Nat`/`Int`; the floating-point percentages of
  step2 are idealised as `ℚ`, with pandas' NaN (arising from a 0/0 column
  division) modelled as `none : Option ℚ`.
* Fallible code paths (Python exceptions) are modelled with `Except`.
-/

namespace BabyNames

abbrev Str := List Char

/-- One member of the zip archive: its path inside the archive and the
UTF-8 decoded text content.  (Byte-level zip framing and UTF-8 decoding
are below the abstraction level; step1 operates on the decoded text.) -/
structure Entry where
  fname : Str
  content : Str
deriving DecidableEq, Repr

/-- Errors surfaced by the step1 `__main__` loop (Python exceptions). -/
inductive NormError where
  /-- `ValueError` from `int(year)` when `fn[3:7]` is not numeric. -/
  | badYear : NormError
  /-- `ValueError` from unpacking `line.split(",")` into three variables. -/
  | malformedRecord : NormError
deriving DecidableEq, Repr

/-- Model of Python's `s.split(sep)` (single-character separator), inner
loop: `cur` accumulates the current field in reverse. -/
def splitSepAux (sep : Char) (cur : Str) : Str → List Str
  | [] => [cur.reverse]
  | c :: rest =>
    if c = sep then cur.reverse :: splitSepAux sep [] rest
    else splitSepAux sep (c :: cur) rest

/-- Model of Python's `s.split(sep)` for a one-character separator:
`splitSep ',' "a,b"` is `["a","b"]`, `splitSep ',' ""` is `[""]`. -/
def splitSep (sep : Char) (s : Str) : List Str :=
  splitSepAux sep [] s

/-- Model of Python's `str.splitlines` (newline terminators only): no
trailing empty line is produced for a terminated final line. -/
def splitlinesAux (cur : Str) : Str → List Str
  | [] => if cur.isEmpty then [] else [cur.reverse]
  | c :: rest =>
    if c = '\n' then cur.reverse :: splitlinesAux [] rest
    else splitlinesAux (c :: cur) rest

/-- Python's `str.splitlines`: `"a\nb".splitlines() = ["a","b"]`,
`"a\n".splitlines() = ["a"]`, `"".splitlines() = []`. -/
def splitlines (s : Str) : List Str :=
  splitlinesAux [] s

/-- `sep.join fields`, Python's `str.join`. -/
def joinSep (sep : Char) : List Str → Str
  | [] => []
  | [f] => f
  | f :: g :: rest => f ++ sep :: joinSep sep (g :: rest)

/-- Python's `fn[3:7]`: characters at offsets 3,4,5,6 (shorter when `fn`
is short — Python slicing never raises). -/
def slice37 (fn : Str) : Str :=
  (fn.drop 3).take 4

/-- Decimal digit test, Python's `str.isdigit` restricted to ASCII. -/
def isDigitChar (c : Char) : Bool :=
  '0' ≤ c && c ≤ '9'

/-- Value of a big-endian ASCII digit string. -/
def digitsVal (s : Str) : Nat :=
  s.foldl (fun a c => a * 10 + (c.toNat - 48)) 0

/-- Characters Python's `int(str)` strips before parsing (whitespace). -/
def isPyWS (c : Char) : Bool :=
  c = ' ' || c = '\t' || c = '\n' || c = '\r' || c = '\x0b' || c = '\x0c'

/-- Model of CPython's `int(s)`: strip surrounding whitespace, allow an
optional sign, then require a nonempty run of decimal digits.  (CPython
additionally allows underscore group separators between digits; that
relaxation is not needed for year substrings of archive member names.) -/
def pythonInt (s : Str) : Option Int :=
  let t := ((s.dropWhile isPyWS).reverse.dropWhile isPyWS).reverse
  match t with
  | '+' :: ds =>
    if ds ≠ [] ∧ ds.all isDigitChar then some (digitsVal ds) else none
  | '-' :: ds =>
    if ds ≠ [] ∧ ds.all isDigitChar then some (-(digitsVal ds : Int)) else none
  | ds =>
    if ds ≠ [] ∧ ds.all isDigitChar then some (digitsVal ds) else none

/-- One output row of step1's `data_list`: all four fields are carried as
text, exactly as the Python code appends `[year, name, gender, count]`. -/
abbrev Row := List Str

/-- The header row `["year", "name", "gender", "count"]` that initialises
`data_list`. -/
def headerRow : Row :=
  ["year".toList, "name".toList, "gender".toList, "count".toList]

/-- Fail-fast traversal: the Python `for` loop appends one result per
element and dies on the first exception. -/
def mapExcept (f : α → Except ε β) : List α → Except ε (List β)
  | [] => .ok []
  | x :: xs =>
    match f x with
    | .error e => .error e
    | .ok y => (mapExcept f xs).map (y :: ·)

/-- `name, gender, count = line.split(",")` followed by
`data_list.append([year, name, gender, count])`: unpacking raises
`ValueError` unless the split has exactly three fields; the row is the
year followed by the three split fields, the count carried as text, not
parsed. -/
def processLine (year : Str) (line : Str) : Except NormError Row :=
  if (splitSep ',' line).length = 3 then .ok (year :: splitSep ',' line)
  else .error .malformedRecord

/-- Body of `for fn in allfiles`: `year = fn[3:7]` and the progress check
`if int(year) % 10 == 0` runs for every entry, so `int(year)` must
succeed before any line is processed; then every line of the entry is
turned into one row, in line order. -/
def processEntry (e : Entry) : Except NormError (List Row) :=
  let year := slice37 e.fname
  match pythonInt year with
  | none => .error .badYear
  | some _ => mapExcept (processLine year) (splitlines e.content)

/-- `f.endswith(".txt")` on the entry name. -/
def isTxt (e : Entry) : Bool :=
  ".txt".toList.isSuffixOf e.fname

/-- The step1 `__main__` loop: filter to `.txt` entries, process each in
archive order, concatenate the rows.  The header is added by `dataList`. -/
def normalize (archive : List Entry) : Except NormError (List Row) :=
  (mapExcept processEntry (archive.filter isTxt)).map List.flatten

/-- The full `data_list` handed to `csv.writer(...).writerows`: the header
row followed by every record row. -/
def dataList (archive : List Entry) : Except NormError (List Row) :=
  (normalize archive).map (headerRow :: ·)

/-- The csv file content: each row's fields joined with commas, each line
terminated by a newline (abstracting the writer's `\r\n` terminator and
the reader's universal-newline handling to `'\n'`). -/
def csvFile (rows : List Row) : Str :=
  (rows.map (fun r => joinSep ',' r ++ ['\n'])).flatten

/-! ### step2: the flat table as read by `pd.read_csv("data.csv")`

`read_csv` parses the `year` and `count` columns as (non-negative)
integers and keeps `name` and `gender` as text. -/

/-- One row of the flat table (`{year, name, gender, count}` of the data
model). -/
structure Record where
  year : Nat
  name : Str
  gender : Str
  count : Nat
deriving DecidableEq, Repr

/-- Decimal rendering of a non-negative integer, Python's `str(n)`. -/
def natDigits (n : Nat) : Str :=
  if n = 0 then ['0'] else ((Nat.digits 10 n).map Nat.digitChar).reverse

/-- Parse a nonempty all-digit string back to a `Nat` (the integer
inference `pd.read_csv` applies to the `year` and `count` columns). -/
def parseNat (s : Str) : Option Nat :=
  if s ≠ [] ∧ s.all isDigitChar then some (digitsVal s) else none

/-- The four text fields of a record row, in the written column order
`year,name,gender,count`. -/
def recordFields (r : Record) : Row :=
  [natDigits r.year, r.name, r.gender, natDigits r.count]

/-- Write the flat table to the intermediate csv format: header row then
one comma-delimited line per record. -/
def writeTable (t : List Record) : Str :=
  csvFile (headerRow :: t.map recordFields)

/-- Fail-fast traversal in the `Option` monad (used by the reader). -/
def mapOpt (f : α → Option β) : List α → Option (List β)
  | [] => some []
  | x :: xs =>
    match f x with
    | none => none
    | some y => (mapOpt f xs).map (y :: ·)

/-- Parse one data line of the csv file back into a `Record`. -/
def parseRecordLine (line : Str) : Option Record :=
  match splitSep ',' line with
  | [y, n, g, c] =>
    match parseNat y, parseNat c with
    | some yv, some cv => some ⟨yv, n, g, cv⟩
    | _, _ => none
  | _ => none

/-- Re-read the intermediate csv file: first line must be the header,
every further line is one record. -/
def readTable (file : Str) : Option (List Record) :=
  match splitlines file with
  | [] => none
  | h :: rest =>
    if h = joinSep ',' headerRow then mapOpt parseRecordLine rest else none

/-! ### step2 aggregations -/

/-- Distinct names of the table (the candidate group keys). -/
def distinctNames (t : List Record) : List Str :=
  (t.map (·.name)).dedup

/-- Insert into an ascending list (stable insertion sort step). -/
def insertAsc (x : Str) : List Str → List Str
  | [] => [x]
  | y :: ys => if x < y then x :: y :: ys else y :: insertAsc x ys

/-- Ascending lexicographic sort of the group keys: pandas `groupby` and
`pivot_table` sort their index ascending. -/
def sortNames (l : List Str) : List Str :=
  l.foldr insertAsc []

/-- Summed count of a name within a row list (`groupby("name").sum()`
cell). -/
def nameSum (rows : List Record) (n : Str) : Nat :=
  ((rows.filter (fun r => r.name = n)).map (·.count)).sum

/-- `groupby("name").sum()`: name-ascending list of `(name, summed
count)` pairs. -/
def groupByNameSum (rows : List Record) : List (Str × Nat) :=
  (sortNames (distinctNames rows)).map fun n => (n, nameSum rows n)

/-- What `sort_values("count", ascending=False)` with the default
`kind='quicksort'` guarantees of its output: a permutation of the input
ordered by non-increasing count.  pandas documents quicksort as not
stable, so the relative order of equal counts is unspecified and any
such permutation is an admissible result. -/
def sortedByCountDesc (l out : List (Str × Nat)) : Prop :=
  out.Perm l ∧ out.Pairwise fun a b => b.2 ≤ a.2

/-- `get_top_10` generalised as the spec's `topN`, as a relation on
admissible results: filter one gender, sum counts per name, sort
descending by summed count (tie order unspecified), keep the first `n`. -/
def topNRel (t : List Record) (g : Str) (n : Nat)
    (out : List (Str × Nat)) : Prop :=
  ∃ s, sortedByCountDesc (groupByNameSum (t.filter fun r => r.gender = g)) s
    ∧ out = s.take n

/-- The order the spec claims `get_top_10` produces: strictly descending
by summed count, ties broken by ascending name. -/
def rankLt (a b : Str × Nat) : Prop :=
  b.2 < a.2 ∨ (a.2 = b.2 ∧ a.1 < b.1)

instance (a b : Str × Nat) : Decidable (rankLt a b) :=
  decidable_of_iff (b.2 < a.2 ∨ (a.2 = b.2 ∧ a.1 < b.1)) Iff.rfl

/-! ### step2 gender-neutral top list -/

/-- Distinct gender symbols occurring in the table: the columns of the
`pivot_table(index="name", columns="gender", ...)`. -/
def gendersOf (t : List Record) : List Str :=
  (t.map (·.gender)).dedup

/-- Does any record pair this name with this gender?  (The pivot cell is
NaN exactly when no record does.) -/
def hasGender (t : List Record) (n g : Str) : Bool :=
  t.any fun r => r.name = n && r.gender = g

/-- Summed count of a (name, gender) cell of the pivot. -/
def cellSum (t : List Record) (n g : Str) : Nat :=
  ((t.filter (fun r => r.name = n ∧ r.gender = g)).map (·.count)).sum

/-- `get_top_20_gender_neutral`: pivot by name with one column per
gender, `dropna()` keeps only names having a record under every gender
column, then keep names with at least 50000 per gender and take the
head of 20.  Accessing the `M` and `F` columns requires both genders to
occur in the table at all (otherwise the Python raises a `KeyError`,
modelled as `none`). -/
def genderNeutralTop (t : List Record) : Option (List (Str × Nat × Nat)) :=
  if ("M".toList ∈ gendersOf t ∧ "F".toList ∈ gendersOf t) then
    let kept := (sortNames (distinctNames t)).filter fun n =>
      (gendersOf t).all fun g => hasGender t n g
    let filt := kept.filter fun n =>
      50000 ≤ cellSum t n "M".toList ∧ 50000 ≤ cellSum t n "F".toList
    some ((filt.map fun n =>
      (n, cellSum t n "M".toList, cellSum t n "F".toList)).take 20)
  else none

/-! ### step2 growth percentages

`plot_popular_names_growth` pivots by name with one column per year,
filling missing cells with 0, and divides each column by its sum, times
100.  Floats are idealised as `ℚ`; the 0/0 cells pandas produces for a
zero-total column (NaN, no exception raised) are modelled as `none`. -/

/-- One cell of the year pivot (`fillna(0)` makes missing cells 0). -/
def pivotVal (t : List Record) (n : Str) (y : Nat) : Nat :=
  ((t.filter (fun r => r.name = n ∧ r.year = y)).map (·.count)).sum

/-- A year column's sum over all names of the pivot index. -/
def colTotal (t : List Record) (y : Nat) : Nat :=
  ((sortNames (distinctNames t)).map fun n => pivotVal t n y).sum

/-- `pivoted_df / pivoted_df.sum() * 100` at one cell; a zero column
total yields NaN (`none`), not an exception. -/
def percentage (t : List Record) (n : Str) (y : Nat) : Option ℚ :=
  if colTotal t y = 0 then none
  else some ((pivotVal t n y : ℚ) / (colTotal t y : ℚ) * 100)

/-! ### Lemmas: splitting and joining -/

theorem splitSepAux_no_sep (sep : Char) :
    ∀ (f cur : Str), sep ∉ f → splitSepAux sep cur f = [cur.reverse ++ f] := by
  intro f
  induction f with
  | nil => intro cur _; simp [splitSepAux]
  | cons c f ih =>
    intro cur hf
    have hc : ¬c = sep := fun h => hf (h ▸ List.mem_cons_self c f)
    have hf' : sep ∉ f := fun h => hf (List.mem_cons_of_mem c h)
    simp [splitSepAux, hc, ih (c :: cur) hf']

theorem splitSepAux_append (sep : Char) :
    ∀ (f cur rest : Str), sep ∉ f →
      splitSepAux sep cur (f ++ sep :: rest)
        = (cur.reverse ++ f) :: splitSepAux sep [] rest := by
  intro f
  induction f with
  | nil => intro cur rest _; simp [splitSepAux]
  | cons c f ih =>
    intro cur rest hf
    have hc : ¬c = sep := fun h => hf (h ▸ List.mem_cons_self c f)
    have hf' : sep ∉ f := fun h => hf (List.mem_cons_of_mem c h)
    simp [splitSepAux, hc, ih (c :: cur) rest hf']

theorem splitSep_joinSep (sep : Char) :
    ∀ fields : List Str, fields ≠ [] → (∀ f ∈ fields, sep ∉ f) →
      splitSep sep (joinSep sep fields) = fields := by
  intro fields
  induction fields with
  | nil => intro h _; exact absurd rfl h
  | cons f rest ih =>
    intro _ hf
    cases rest with
    | nil =>
      simpa [splitSep, joinSep] using
        splitSepAux_no_sep sep f [] (hf f (List.mem_cons_self f []))
    | cons g rest' =>
      have h1 : splitSep sep (joinSep sep (f :: g :: rest'))
          = f :: splitSepAux sep [] (joinSep sep (g :: rest')) := by
        simpa [splitSep, joinSep] using
          splitSepAux_append sep f [] (joinSep sep (g :: rest'))
            (hf f (List.mem_cons_self f (g :: rest')))
      rw [h1]
      have h2 : splitSep sep (joinSep sep (g :: rest')) = g :: rest' :=
        ih (List.cons_ne_nil g rest')
          (fun x hx => hf x (List.mem_cons_of_mem f hx))
      simpa [splitSep] using congrArg (f :: ·) h2

theorem splitlinesAux_append :
    ∀ (l cur rest : Str), '\n' ∉ l →
      splitlinesAux cur (l ++ '\n' :: rest)
        = (cur.reverse ++ l) :: splitlinesAux [] rest := by
  intro l
  induction l with
  | nil => intro cur rest _; simp [splitlinesAux]
  | cons c l ih =>
    intro cur rest hl
    have hc : ¬c = '\n' := fun h => hl (h ▸ List.mem_cons_self c l)
    have hl' : '\n' ∉ l := fun h => hl (List.mem_cons_of_mem c h)
    simp [splitlinesAux, hc, ih (c :: cur) rest hl']

/-- Splitting the written file back into lines recovers the rows, as long
as no row content contains a newline. -/
theorem splitlines_terminated :
    ∀ lines : List Str, (∀ l ∈ lines, '\n' ∉ l) →
      splitlines ((lines.map (· ++ ['\n'])).flatten) = lines := by
  intro lines
  induction lines with
  | nil => intro _; rfl
  | cons l rest ih =>
    intro h
    have hl : '\n' ∉ l := h l (List.mem_cons_self l rest)
    have hrest : ∀ x ∈ rest, '\n' ∉ x :=
      fun x hx => h x (List.mem_cons_of_mem l hx)
    have : ((l :: rest).map (· ++ ['\n'])).flatten
        = l ++ '\n' :: (rest.map (· ++ ['\n'])).flatten := by
      simp
    rw [splitlines, this, splitlinesAux_append l [] _ hl]
    simpa [splitlines] using congrArg (l :: ·) (ih hrest)

theorem mem_joinSep {sep c : Char} :
    ∀ {fields : List Str}, c ∈ joinSep sep fields →
      c = sep ∨ ∃ f ∈ fields, c ∈ f := by
  intro fields
  induction fields with
  | nil => intro h; simp [joinSep] at h
  | cons f rest ih =>
    intro h
    cases rest with
    | nil =>
      exact Or.inr ⟨f, List.mem_cons_self f [], by simpa [joinSep] using h⟩
    | cons g rest' =>
      rw [joinSep] at h
      rcases List.mem_append.mp h with hf | hs
      · exact Or.inr ⟨f, List.mem_cons_self f _, hf⟩
      · rcases List.mem_cons.mp hs with hc | hj
        · exact Or.inl hc
        · rcases ih hj with hc | ⟨x, hx, hcx⟩
          · exact Or.inl hc
          · exact Or.inr ⟨x, List.mem_cons_of_mem f hx, hcx⟩

/-! ### Lemmas: fail-fast traversal -/

theorem mapExcept_ok_of {f : α → Except ε β} {g : α → β} :
    ∀ l : List α, (∀ x ∈ l, f x = .ok (g x)) →
      mapExcept f l = .ok (l.map g) := by
  intro l
  induction l with
  | nil => intro _; rfl
  | cons x xs ih =>
    intro h
    have hx := h x (List.mem_cons_self x xs)
    have hxs := ih fun y hy => h y (List.mem_cons_of_mem x hy)
    simp [mapExcept, hx, hxs, Except.map]

theorem mapExcept_ok_mem {f : α → Except ε β} :
    ∀ {l : List α} {ys : List β}, mapExcept f l = .ok ys →
      ∀ x ∈ l, ∃ y, f x = .ok y := by
  intro l
  induction l with
  | nil => intro ys _ x hx; simp at hx
  | cons a xs ih =>
    intro ys h x hx
    rw [mapExcept] at h
    cases ha : f a with
    | error e => rw [ha] at h; exact absurd h (by simp)
    | ok y =>
      rw [ha] at h
      cases hxs : mapExcept f xs with
      | error e => rw [hxs] at h; exact absurd h (by simp [Except.map])
      | ok ys' =>
        rcases List.mem_cons.mp hx with rfl | hmem
        · exact ⟨y, ha⟩
        · exact ih hxs x hmem

theorem mapExcept_ok_eq {f : α → Except ε β} {g : α → β} :
    ∀ {l : List α} {ys : List β}, mapExcept f l = .ok ys →
      (∀ x ∈ l, ∀ y, f x = .ok y → y = g x) → ys = l.map g := by
  intro l
  induction l with
  | nil => intro ys h _; simpa [mapExcept] using h.symm
  | cons a xs ih =>
    intro ys h hg
    rw [mapExcept] at h
    cases ha : f a with
    | error e => rw [ha] at h; exact absurd h (by simp)
    | ok y =>
      rw [ha] at h
      cases hxs : mapExcept f xs with
      | error e => rw [hxs] at h; exact absurd h (by simp [Except.map])
      | ok ys' =>
        rw [hxs] at h
        have hy : y = g a := hg a (List.mem_cons_self a xs) y ha
        have hys' : ys' = xs.map g :=
          ih hxs fun x hx => hg x (List.mem_cons_of_mem a hx)
        have : ys = y :: ys' := by
          simpa [Except.map] using h.symm
        simp [this, hy, hys']

/-! ### Lemmas: the normalizer's success case -/

/-- The rows one qualifying entry contributes: one per line, in line
order, each being the year slice followed by the comma-split fields. -/
def entryRows (e : Entry) : List Row :=
  (splitlines e.content).map fun l => slice37 e.fname :: splitSep ',' l

theorem processLine_ok {year line : Str} {row : Row}
    (h : processLine year line = .ok row) :
    row = year :: splitSep ',' line := by
  rw [processLine] at h
  split at h
  · exact (Except.ok.inj h).symm
  · exact absurd h (by simp)

theorem processEntry_ok_eq {e : Entry} {rs : List Row}
    (h : processEntry e = .ok rs) : rs = entryRows e := by
  rw [processEntry] at h
  cases hy : pythonInt (slice37 e.fname) with
  | none => rw [hy] at h; exact absurd h (by simp)
  | some v =>
    rw [hy] at h
    exact mapExcept_ok_eq h fun l _ row hrow => processLine_ok hrow

theorem normalize_ok_eq {archive : List Entry} {rows : List Row}
    (h : normalize archive = .ok rows) :
    rows = ((archive.filter isTxt).map entryRows).flatten := by
  rw [normalize] at h
  cases hm : mapExcept processEntry (archive.filter isTxt) with
  | error e => rw [hm] at h; exact absurd h (by simp [Except.map])
  | ok rss =>
    rw [hm] at h
    have h1 : rows = rss.flatten := by
      simpa [Except.map] using h.symm
    have h2 : rss = (archive.filter isTxt).map entryRows :=
      mapExcept_ok_eq hm fun e _ rs hrs => processEntry_ok_eq hrs
    rw [h1, h2]

instance {ε α : Type} [DecidableEq ε] [DecidableEq α] :
    DecidableEq (Except ε α)
  | .error a, .error b =>
    if h : a = b then isTrue (by rw [h])
    else isFalse fun hh => h (Except.error.inj hh)
  | .error _, .ok _ => isFalse fun hh => Except.noConfusion hh
  | .ok _, .error _ => isFalse fun hh => Except.noConfusion hh
  | .ok a, .ok b =>
    if h : a = b then isTrue (by rw [h])
    else isFalse fun hh => h (Except.ok.inj hh)

/-! ### Claims C2–C5, C10: the archive normalizer -/

/-- C2, as stated, is false: step1 appends the third split field to the
row as text without calling `int` on it, so a line with a non-numeric
count field is emitted unchanged instead of failing. -/
theorem claim_C2_counterexample :
    normalize [⟨"yob2000.txt".toList, "Bob,M,notanumber".toList⟩]
      = .ok [["2000".toList, "Bob".toList, "M".toList,
              "notanumber".toList]] := by
  decide

/-- C2 (amended): `normalize` does not parse the count field at all — any
line splitting into exactly three comma-separated fields is emitted as a
row carrying the third field as unmodified text, numeric or not; no
`MalformedRecordError` is raised for a non-numeric count. -/
theorem claim_C2 :
    ∀ year line f1 f2 f3 : Str, splitSep ',' line = [f1, f2, f3] →
      processLine year line = .ok [year, f1, f2, f3] := by
  intro year line f1 f2 f3 h
  simp [processLine, h]

/-- C2 witness: the amended statement evaluated on the non-numeric count
line `"Bob,M,notanumber"`. -/
theorem claim_C2_witness :
    processLine "2000".toList "Bob,M,notanumber".toList
      = .ok ["2000".toList, "Bob".toList, "M".toList,
             "notanumber".toList] :=
  claim_C2 "2000".toList "Bob,M,notanumber".toList _ _ _ (by decide)

/-- C3, as stated, is false: on an archive with no `.txt` entries the
step1 loop body never runs, no exception is raised, and the csv writer
emits a table consisting of the header row alone. -/
theorem claim_C3_counterexample :
    dataList [⟨"NationalReadMe.pdf".toList, "pdf bytes".toList⟩]
      = .ok [headerRow] := by
  decide

/-- C3 (amended): for every archive with no qualifying entries the
pipeline completes normally and emits a header-only table; no
`EmptyArchiveError` exists in the code. -/
theorem claim_C3 :
    ∀ archive : List Entry, archive.filter isTxt = [] →
      dataList archive = .ok [headerRow] := by
  intro archive h
  simp [dataList, normalize, h, mapExcept, Except.map]

/-- C3 witness: the amended statement evaluated on a one-entry archive
holding only a PDF. -/
theorem claim_C3_witness :
    ([⟨"NationalReadMe.pdf".toList, "pdf bytes".toList⟩] : List Entry).filter
        isTxt = [] ∧
    dataList [⟨"NationalReadMe.pdf".toList, "pdf bytes".toList⟩]
      = .ok [headerRow] :=
  ⟨by decide, claim_C3 _ (by decide)⟩

/-- C4: a line that does not split on commas into exactly three fields
makes `processLine` fail with the malformed-record error (Python's
`ValueError` from tuple unpacking) — no line is silently dropped — and in
particular an archive containing the line `"OnlyOneField"` makes the
whole run fail. -/
theorem claim_C4 :
    (∀ year line : Str, (splitSep ',' line).length ≠ 3 →
        processLine year line = .error .malformedRecord) ∧
    normalize [⟨"yob2000.txt".toList, "OnlyOneField".toList⟩]
      = .error .malformedRecord := by
  constructor
  · intro year line h
    simp [processLine, h]
  · decide

/-- C4 witness: the single-field line `"OnlyOneField"` splits into one
field, and `processLine` rejects it. -/
theorem claim_C4_witness :
    (splitSep ',' "OnlyOneField".toList).length ≠ 3 ∧
    processLine "2000".toList "OnlyOneField".toList
      = .error .malformedRecord :=
  ⟨by decide, claim_C4.1 "2000".toList "OnlyOneField".toList (by decide)⟩

/-- C5: whenever `normalize` succeeds its output has exactly one row per
input line of each qualifying entry, in archive entry order and, within
an entry, in line order (`entryRows` is literally that entry's line list
mapped to rows); on a concrete two-entry archive the output is the
expected flat table. -/
theorem claim_C5 :
    (∀ (archive : List Entry) (rows : List Row),
        normalize archive = .ok rows →
        rows = ((archive.filter isTxt).map entryRows).flatten) ∧
    normalize
        [⟨"yob2000.txt".toList, "Emma,F,10\nLiam,M,9".toList⟩,
         ⟨"yob2001.txt".toList, "Noah,M,8".toList⟩]
      = .ok
        [["2000".toList, "Emma".toList, "F".toList, "10".toList],
         ["2000".toList, "Liam".toList, "M".toList, "9".toList],
         ["2001".toList, "Noah".toList, "M".toList, "8".toList]] :=
  ⟨fun _ _ h => normalize_ok_eq h, by decide⟩

/-- C5 witness: the general ordering statement evaluated on the same
two-entry archive. -/
theorem claim_C5_witness :
    (["2000".toList, "Emma".toList, "F".toList, "10".toList] ::
       [["2000".toList, "Liam".toList, "M".toList, "9".toList],
        ["2001".toList, "Noah".toList, "M".toList, "8".toList]])
      = ((([⟨"yob2000.txt".toList, "Emma,F,10\nLiam,M,9".toList⟩,
            ⟨"yob2001.txt".toList, "Noah,M,8".toList⟩] : List Entry).filter
              isTxt).map entryRows).flatten :=
  claim_C5.1 _ _ (by decide)

/-- C10: the year substring `fn[3:7]` is converted with `int` for every
qualifying entry (the `% 10` progress check runs unconditionally), so an
entry whose four characters at offsets 3–6 are not accepted by `int`
(modelled by `pythonInt`) aborts the entry before any of its rows is
produced, and the whole run can no longer succeed. -/
theorem claim_C10 :
    ∀ (archive : List Entry) (e : Entry), e ∈ archive → isTxt e = true →
      pythonInt (slice37 e.fname) = none →
      processEntry e = .error .badYear ∧
        ∀ rows, normalize archive ≠ .ok rows := by
  intro archive e he htxt hy
  have hpe : processEntry e = .error .badYear := by
    simp [processEntry, hy]
  refine ⟨hpe, ?_⟩
  intro rows h
  rw [normalize] at h
  cases hm : mapExcept processEntry (archive.filter isTxt) with
  | error err => rw [hm] at h; exact absurd h (by simp [Except.map])
  | ok rss =>
    have hmem : e ∈ archive.filter isTxt := List.mem_filter.mpr ⟨he, htxt⟩
    obtain ⟨y, hy2⟩ := mapExcept_ok_mem hm e hmem
    rw [hpe] at hy2
    exact absurd hy2 (by simp)

/-- C10 witness: a qualifying entry named `yobABCD.txt` (non-numeric year
slice `ABCD`) kills the run before emitting anything. -/
theorem claim_C10_witness :
    processEntry ⟨"yobABCD.txt".toList, "Bob,M,5".toList⟩
        = .error .badYear ∧
    normalize [⟨"yobABCD.txt".toList, "Bob,M,5".toList⟩] ≠ .ok [] := by
  have h := claim_C10 [⟨"yobABCD.txt".toList, "Bob,M,5".toList⟩]
    ⟨"yobABCD.txt".toList, "Bob,M,5".toList⟩
    (List.mem_cons_self _ _) (by decide) (by decide)
  exact ⟨h.1, h.2 []⟩

/-! ### Claim C9: the emitted intermediate file -/

/-- The file step1 writes: the csv rendering of the header plus all rows. -/
def outFile (archive : List Entry) : Except NormError Str :=
  (dataList archive).map csvFile

theorem normalize_ok_row_ne_nil {archive : List Entry} {rows : List Row}
    (h : normalize archive = .ok rows) : ∀ row ∈ rows, row ≠ [] := by
  intro row hrow
  rw [normalize_ok_eq h] at hrow
  rcases List.mem_flatten.mp hrow with ⟨l, hl, hrl⟩
  rcases List.mem_map.mp hl with ⟨e, _, rfl⟩
  rcases List.mem_map.mp hrl with ⟨line, _, rfl⟩
  exact List.cons_ne_nil _ _

/-- C9: whenever the pipeline succeeds, the written file splits back into
lines whose first is exactly the header `year,name,gender,count` and
whose remainder is one comma-joined line per record row in order;
splitting any of those lines on commas recovers the row's fields in the
written column order (provided, as the spec assumes, that no field
contains a comma or newline). -/
theorem claim_C9 :
    ∀ (archive : List Entry) (rows : List Row) (file : Str),
      normalize archive = .ok rows →
      outFile archive = .ok file →
      (∀ row ∈ rows, ∀ f ∈ row, ',' ∉ f ∧ '\n' ∉ f) →
      splitlines file = joinSep ',' headerRow :: rows.map (joinSep ',') ∧
      joinSep ',' headerRow = "year,name,gender,count".toList ∧
      ∀ row ∈ rows, splitSep ',' (joinSep ',' row) = row := by
  intro archive rows file hn hf hclean
  have hfile : file = csvFile (headerRow :: rows) := by
    rw [outFile, dataList, hn] at hf
    simpa [Except.map] using hf.symm
  have hnolf : ∀ l ∈ (headerRow :: rows).map (joinSep ','), '\n' ∉ l := by
    intro l hl
    rcases List.mem_map.mp hl with ⟨row, hrow, rfl⟩
    intro hc
    rcases mem_joinSep hc with hsep | ⟨f, hfm, hcf⟩
    · exact absurd hsep (by decide)
    · rcases List.mem_cons.mp hrow with rfl | hrow'
      · simp [headerRow] at hfm
        rcases hfm with rfl | rfl | rfl | rfl <;> revert hc <;> decide
      · exact ((hclean row hrow' f hfm).2) hcf
  constructor
  · have hcomp : (fun r : Row => joinSep ',' r ++ ['\n'])
        = ((· ++ ['\n']) ∘ joinSep ',') := rfl
    rw [hfile, csvFile, hcomp, ← List.map_map (· ++ ['\n']) (joinSep ',')]
    exact splitlines_terminated _ hnolf
  refine ⟨by decide, ?_⟩
  intro row hrow
  exact splitSep_joinSep ',' row (normalize_ok_row_ne_nil hn row hrow)
    fun f hf => (hclean row hrow f hf).1

/-- C9 witness: the structure of the file written for a one-entry archive
with the single line `Bob,M,5`. -/
theorem claim_C9_witness :
    splitlines (csvFile (headerRow ::
        [["2000".toList, "Bob".toList, "M".toList, "5".toList]]))
      = joinSep ',' headerRow ::
        [["2000".toList, "Bob".toList, "M".toList, "5".toList]].map
          (joinSep ',') ∧
    splitSep ','
        (joinSep ',' ["2000".toList, "Bob".toList, "M".toList, "5".toList])
      = ["2000".toList, "Bob".toList, "M".toList, "5".toList] := by
  have h := claim_C9 [⟨"yob2000.txt".toList, "Bob,M,5".toList⟩]
    [["2000".toList, "Bob".toList, "M".toList, "5".toList]]
    (csvFile (headerRow ::
      [["2000".toList, "Bob".toList, "M".toList, "5".toList]]))
    (by decide) (by decide) (by decide)
  exact ⟨h.1, h.2.2 _ (List.mem_cons_self _ _)⟩

/-! ### Claim C8: csv round trip for the flat table -/

theorem isDigitChar_digitChar {d : Nat} (hd : d < 10) :
    isDigitChar (Nat.digitChar d) = true := by
  interval_cases d <;> decide

theorem toNat_digitChar {d : Nat} (hd : d < 10) :
    (Nat.digitChar d).toNat = 48 + d := by
  interval_cases d <;> decide

theorem digitsVal_append (l : Str) (c : Char) :
    digitsVal (l ++ [c]) = digitsVal l * 10 + (c.toNat - 48) := by
  simp [digitsVal, List.foldl_append]

theorem digitsVal_ofDigits :
    ∀ ds : List Nat, (∀ d ∈ ds, d < 10) →
      digitsVal ((ds.map Nat.digitChar).reverse) = Nat.ofDigits 10 ds := by
  intro ds
  induction ds with
  | nil => intro _; rfl
  | cons d ds ih =>
    intro h
    have hd : d < 10 := h d (List.mem_cons_self d ds)
    have hds : ∀ x ∈ ds, x < 10 := fun x hx => h x (List.mem_cons_of_mem d hx)
    rw [List.map_cons, List.reverse_cons, digitsVal_append, ih hds,
      toNat_digitChar hd, Nat.ofDigits_cons]
    omega

theorem mem_natDigits_isDigit {n : Nat} {c : Char} (hc : c ∈ natDigits n) :
    isDigitChar c = true := by
  rw [natDigits] at hc
  split at hc
  · rcases List.mem_singleton.mp hc with rfl
    decide
  · rcases List.mem_reverse.mp hc with hc'
    rcases List.mem_map.mp hc' with ⟨d, hd, rfl⟩
    exact isDigitChar_digitChar (Nat.digits_lt_base (by norm_num) hd)

theorem isDigitChar_ne_comma {c : Char} (h : isDigitChar c = true) :
    ¬c = ',' := by
  intro hc; subst hc; exact absurd h (by decide)

theorem isDigitChar_ne_lf {c : Char} (h : isDigitChar c = true) :
    ¬c = '\n' := by
  intro hc; subst hc; exact absurd h (by decide)

theorem parseNat_natDigits (n : Nat) : parseNat (natDigits n) = some n := by
  have hne : natDigits n ≠ [] := by
    rw [natDigits]
    split
    · simp
    · simp only [ne_eq, List.reverse_eq_nil_iff, List.map_eq_nil_iff]
      exact Nat.digits_ne_nil_iff_ne_zero.mpr (by assumption)
  have hall : (natDigits n).all isDigitChar = true :=
    List.all_eq_true.mpr fun c hc => mem_natDigits_isDigit hc
  rw [parseNat, if_pos ⟨hne, hall⟩]
  congr 1
  rw [natDigits]
  split
  · subst n; rfl
  · rw [digitsVal_ofDigits _ fun d hd => Nat.digits_lt_base (by norm_num) hd,
      Nat.ofDigits_digits]

theorem mapOpt_comp (f : α → Option β) (h : γ → α) :
    ∀ l : List γ, mapOpt f (l.map h) = mapOpt (fun x => f (h x)) l := by
  intro l
  induction l with
  | nil => rfl
  | cons x xs ih => simp [mapOpt, ih]

theorem mapOpt_some_of {f : α → Option β} {g : α → β} :
    ∀ l : List α, (∀ x ∈ l, f x = some (g x)) → mapOpt f l = some (l.map g) := by
  intro l
  induction l with
  | nil => intro _; rfl
  | cons x xs ih =>
    intro h
    have hx := h x (List.mem_cons_self x xs)
    have hxs := ih fun y hy => h y (List.mem_cons_of_mem x hy)
    simp [mapOpt, hx, hxs]

/-- Fields free of separators and newlines, the spec's stated property of
the dataset ("no quoting needed since none of the fields contain
commas"). -/
def cleanField (f : Str) : Prop :=
  ',' ∉ f ∧ '\n' ∉ f

instance (f : Str) : Decidable (cleanField f) :=
  decidable_of_iff (',' ∉ f ∧ '\n' ∉ f) Iff.rfl

theorem cleanField_natDigits (n : Nat) : cleanField (natDigits n) :=
  ⟨fun hc => isDigitChar_ne_comma (mem_natDigits_isDigit hc) rfl,
   fun hc => isDigitChar_ne_lf (mem_natDigits_isDigit hc) rfl⟩

theorem parseRecordLine_roundtrip (r : Record)
    (hn : cleanField r.name) (hg : cleanField r.gender) :
    parseRecordLine (joinSep ',' (recordFields r)) = some r := by
  have hsplit : splitSep ',' (joinSep ',' (recordFields r)) = recordFields r := by
    refine splitSep_joinSep ',' (recordFields r) (by simp [recordFields]) ?_
    intro f hfm
    simp only [recordFields, List.mem_cons, List.mem_singleton] at hfm
    rcases hfm with rfl | rfl | rfl | h
    · exact (cleanField_natDigits r.year).1
    · exact hn.1
    · exact hg.1
    · rcases h with rfl | h
      · exact (cleanField_natDigits r.count).1
      · simp at h
  rw [parseRecordLine, hsplit, recordFields]
  simp [parseNat_natDigits]

theorem claim_C8_lines (t : List Record)
    (hclean : ∀ r ∈ t, cleanField r.name ∧ cleanField r.gender) :
    splitlines (writeTable t)
      = (headerRow :: t.map recordFields).map (joinSep ',') := by
  have hnolf : ∀ l ∈ (headerRow :: t.map recordFields).map (joinSep ','),
      '\n' ∉ l := by
    intro l hl
    rcases List.mem_map.mp hl with ⟨row, hrow, rfl⟩
    intro hc
    rcases mem_joinSep hc with hsep | ⟨f, hfm, hcf⟩
    · exact absurd hsep (by decide)
    · rcases List.mem_cons.mp hrow with rfl | hrow'
      · simp [headerRow] at hfm
        rcases hfm with rfl | rfl | rfl | rfl <;> revert hcf <;> decide
      · rcases List.mem_map.mp hrow' with ⟨r, hr, rfl⟩
        simp only [recordFields, List.mem_cons, List.mem_singleton] at hfm
        rcases hfm with rfl | rfl | rfl | h
        · exact (cleanField_natDigits r.year).2 hcf
        · exact (hclean r hr).1.2 hcf
        · exact (hclean r hr).2.2 hcf
        · rcases h with rfl | h
          · exact (cleanField_natDigits r.count).2 hcf
          · simp at h
  have hcomp : (fun r : Row => joinSep ',' r ++ ['\n'])
      = ((· ++ ['\n']) ∘ joinSep ',') := rfl
  rw [writeTable, csvFile, hcomp, ← List.map_map (· ++ ['\n']) (joinSep ',')]
  exact splitlines_terminated _ hnolf

/-- C8: writing the flat table to the intermediate csv format and
re-reading the file reproduces the identical record sequence — same
length, same order, integer year and count preserved exactly — whenever
the name and gender fields contain no comma or newline (the property the
spec asserts of the dataset). -/
theorem claim_C8 :
    ∀ t : List Record,
      (∀ r ∈ t, cleanField r.name ∧ cleanField r.gender) →
      readTable (writeTable t) = some t := by
  intro t hclean
  rw [readTable.eq_def, claim_C8_lines t hclean]
  simp only [List.map_cons, if_pos rfl]
  rw [List.map_map,
    mapOpt_comp parseRecordLine (joinSep ',' ∘ recordFields) t]
  have := mapOpt_some_of (f := fun r => parseRecordLine
      (joinSep ',' (recordFields r))) (g := id) t
    fun r hr => by
      show parseRecordLine (joinSep ',' (recordFields r)) = some (id r)
      rw [parseRecordLine_roundtrip r (hclean r hr).1 (hclean r hr).2]; rfl
  simpa using this

/-- C8 witness: the round trip evaluated on a concrete two-record table. -/
theorem claim_C8_witness :
    readTable (writeTable
        [⟨2000, "Bob".toList, "M".toList, 5⟩,
         ⟨2001, "Ann".toList, "F".toList, 3⟩])
      = some
        [⟨2000, "Bob".toList, "M".toList, 5⟩,
         ⟨2001, "Ann".toList, "F".toList, 3⟩] :=
  claim_C8 _ (by decide)

/-! ### Lemmas: sorting -/

theorem insertAsc_perm (x : Str) :
    ∀ l : List Str, (insertAsc x l).Perm (x :: l) := by
  intro l
  induction l with
  | nil => exact List.Perm.refl _
  | cons y ys ih =>
    rw [insertAsc]
    split
    · exact List.Perm.refl _
    · exact (ih.cons y).trans (List.Perm.swap x y ys)

theorem sortNames_perm : ∀ l : List Str, (sortNames l).Perm l := by
  intro l
  induction l with
  | nil => exact List.Perm.refl _
  | cons x xs ih =>
    exact (insertAsc_perm x (sortNames xs)).trans (ih.cons x)

theorem sorted_insertAsc (x : Str) :
    ∀ l : List Str, l.Sorted (· ≤ ·) → (insertAsc x l).Sorted (· ≤ ·) := by
  intro l
  induction l with
  | nil => intro _; simp [insertAsc]
  | cons y ys ih =>
    intro hs
    rw [List.sorted_cons] at hs
    obtain ⟨hy, hys⟩ := hs
    rw [insertAsc]
    split
    · rename_i hxy
      rw [List.sorted_cons]
      refine ⟨?_, ?_⟩
      · intro b hb
        rcases List.mem_cons.mp hb with rfl | hb'
        · exact le_of_lt hxy
        · exact le_trans (le_of_lt hxy) (hy b hb')
      · rw [List.sorted_cons]; exact ⟨hy, hys⟩
    · rename_i hxy
      rw [List.sorted_cons]
      refine ⟨?_, ih hys⟩
      intro b hb
      rcases List.mem_cons.mp ((insertAsc_perm x ys).mem_iff.mp hb) with rfl | hb'
      · exact le_of_not_lt hxy
      · exact hy b hb'

theorem sorted_sortNames (l : List Str) : (sortNames l).Sorted (· ≤ ·) := by
  induction l with
  | nil => simp [sortNames]
  | cons x xs ih => exact sorted_insertAsc x (sortNames xs) ih

/-- The group keys of `groupby("name").sum()` are strictly increasing. -/
theorem groupByNameSum_pairwise (rows : List Record) :
    (groupByNameSum rows).Pairwise fun a b => a.1 < b.1 := by
  rw [groupByNameSum, List.pairwise_map]
  have hnodup : (sortNames (distinctNames rows)).Nodup :=
    ((sortNames_perm (distinctNames rows)).nodup_iff).mpr
      (List.nodup_dedup _)
  exact (sorted_sortNames (distinctNames rows)).lt_of_le hnodup

/-! ### Claims C1, C6, C7: the aggregate reporter -/

/-- C1, as stated, is false: `sort_values` with the default unstable
quicksort only guarantees a count-descending permutation, so on the tie
table {Bob:5, Cid:5} the Cid-first arrangement is an admissible sort
result and an admissible `topN` output — the claimed lexicographic
tie-break (`rankLt`) and the Bob-first result are not guaranteed by the
program. -/
theorem claim_C1_counterexample :
    topNRel [⟨2000, "Bob".toList, "M".toList, 5⟩,
             ⟨2000, "Cid".toList, "M".toList, 5⟩] "M".toList 1
      [("Cid".toList, 5)] ∧
    ("Cid".toList, (5 : Nat)) ≠ ("Bob".toList, 5) ∧
    sortedByCountDesc
      (groupByNameSum (([⟨2000, "Bob".toList, "M".toList, 5⟩,
                         ⟨2000, "Cid".toList, "M".toList, 5⟩] :
          List Record).filter fun r => r.gender = "M".toList))
      [("Cid".toList, 5), ("Bob".toList, 5)] ∧
    ¬ ([("Cid".toList, 5), ("Bob".toList, 5)] :
        List (Str × Nat)).Pairwise rankLt := by
  have hgrp : groupByNameSum (([⟨2000, "Bob".toList, "M".toList, 5⟩,
      ⟨2000, "Cid".toList, "M".toList, 5⟩] :
        List Record).filter fun r => r.gender = "M".toList)
      = [("Bob".toList, 5), ("Cid".toList, 5)] := by decide
  have hsorted : sortedByCountDesc
      (groupByNameSum (([⟨2000, "Bob".toList, "M".toList, 5⟩,
                         ⟨2000, "Cid".toList, "M".toList, 5⟩] :
          List Record).filter fun r => r.gender = "M".toList))
      [("Cid".toList, 5), ("Bob".toList, 5)] := by
    rw [hgrp]
    exact ⟨List.Perm.swap _ _ _, by decide⟩
  refine ⟨⟨[("Cid".toList, 5), ("Bob".toList, 5)], hsorted, rfl⟩,
    by decide, hsorted, by decide⟩

/-- C1 (amended): every admissible `topN` result is ordered by summed
count non-increasing and pairs each name with its summed count within
the chosen gender, but the relative order of equal summed counts is not
guaranteed: on the two-record tie table {Bob:5, Cid:5} both the
Bob-first and the Cid-first outputs are admissible results of
`topN(table, "M", 1)`. -/
theorem claim_C1 :
    (∀ (t : List Record) (g : Str) (n : Nat) (out : List (Str × Nat)),
        topNRel t g n out →
          (out.Pairwise fun a b => b.2 ≤ a.2) ∧
          ∀ p ∈ out, p.2 = nameSum (t.filter fun r => r.gender = g) p.1) ∧
    (topNRel [⟨2000, "Bob".toList, "M".toList, 5⟩,
              ⟨2000, "Cid".toList, "M".toList, 5⟩] "M".toList 1
        [("Bob".toList, 5)] ∧
     topNRel [⟨2000, "Bob".toList, "M".toList, 5⟩,
              ⟨2000, "Cid".toList, "M".toList, 5⟩] "M".toList 1
        [("Cid".toList, 5)]) := by
  constructor
  · intro t g n out hout
    rcases hout with ⟨s, ⟨hperm, hpair⟩, rfl⟩
    constructor
    · exact hpair.sublist (List.take_sublist n s)
    · intro p hp
      have hp2 : p ∈ groupByNameSum (t.filter fun r => r.gender = g) :=
        hperm.mem_iff.mp (List.take_subset n s hp)
      rcases List.mem_map.mp hp2 with ⟨m, _, rfl⟩
      rfl
  · constructor
    · refine ⟨[("Bob".toList, 5), ("Cid".toList, 5)], ⟨?_, by decide⟩, rfl⟩
      have hgrp : groupByNameSum (([⟨2000, "Bob".toList, "M".toList, 5⟩,
            ⟨2000, "Cid".toList, "M".toList, 5⟩] :
              List Record).filter fun r => r.gender = "M".toList)
          = [("Bob".toList, 5), ("Cid".toList, 5)] := by decide
      rw [hgrp]
    · refine ⟨[("Cid".toList, 5), ("Bob".toList, 5)], ⟨?_, by decide⟩, rfl⟩
      have hgrp : groupByNameSum (([⟨2000, "Bob".toList, "M".toList, 5⟩,
            ⟨2000, "Cid".toList, "M".toList, 5⟩] :
              List Record).filter fun r => r.gender = "M".toList)
          = [("Bob".toList, 5), ("Cid".toList, 5)] := by decide
      rw [hgrp]
      exact List.Perm.swap _ _ _

/-- C1 witness: the amended ordering and summed-count statement
evaluated on the Bob-first admissible output of the tie table. -/
theorem claim_C1_witness :
    (([("Bob".toList, 5)] : List (Str × Nat)).Pairwise fun a b =>
        b.2 ≤ a.2) ∧
    (("Bob".toList, 5) : Str × Nat).2
      = nameSum (([⟨2000, "Bob".toList, "M".toList, 5⟩,
                   ⟨2000, "Cid".toList, "M".toList, 5⟩] : List Record).filter
          fun r => r.gender = "M".toList) ("Bob".toList, 5).1 := by
  have h := claim_C1.1 [⟨2000, "Bob".toList, "M".toList, 5⟩,
      ⟨2000, "Cid".toList, "M".toList, 5⟩] "M".toList 1 [("Bob".toList, 5)]
    ⟨[("Bob".toList, 5), ("Cid".toList, 5)],
     ⟨by rw [show groupByNameSum (([⟨2000, "Bob".toList, "M".toList, 5⟩,
          ⟨2000, "Cid".toList, "M".toList, 5⟩] :
            List Record).filter fun r => r.gender = "M".toList)
        = [("Bob".toList, 5), ("Cid".toList, 5)] from by decide],
      by decide⟩, rfl⟩
  exact ⟨h.1, h.2 ("Bob".toList, 5) (List.mem_cons_self _ _)⟩

/-- C6: every name returned by the gender-neutral top list occurs in the
table under both gender symbols and its summed count under each gender is
at least 50000; a name present under only one gender is excluded even
with a count above the threshold (Ann, female only, 100000, is dropped
while Lee with 60000 under each gender is kept). -/
theorem claim_C6 :
    (∀ (t : List Record) (res : List (Str × Nat × Nat)),
        genderNeutralTop t = some res → ∀ x ∈ res,
          hasGender t x.1 "M".toList = true ∧
          hasGender t x.1 "F".toList = true ∧
          x.2.1 = cellSum t x.1 "M".toList ∧
          x.2.2 = cellSum t x.1 "F".toList ∧
          50000 ≤ x.2.1 ∧ 50000 ≤ x.2.2) ∧
    genderNeutralTop
        [⟨2000, "Ann".toList, "F".toList, 100000⟩,
         ⟨2000, "Lee".toList, "M".toList, 60000⟩,
         ⟨2000, "Lee".toList, "F".toList, 60000⟩]
      = some [("Lee".toList, 60000, 60000)] := by
  refine ⟨?_, by decide⟩
  intro t res h x hx
  rw [genderNeutralTop] at h
  split at h
  · rename_i hMF
    have hres := Option.some.inj h
    rw [← hres] at hx
    have hx' := List.take_subset 20 _ hx
    rcases List.mem_map.mp hx' with ⟨m, hm, rfl⟩
    rcases List.mem_filter.mp hm with ⟨hmk, hthr⟩
    rcases List.mem_filter.mp hmk with ⟨_, hall⟩
    have hallP := List.all_eq_true.mp hall
    have hthr' := of_decide_eq_true hthr
    exact ⟨hallP _ hMF.1, hallP _ hMF.2, rfl, rfl, hthr'.1, hthr'.2⟩
  · exact absurd h (by simp)

/-- C6 witness: the general statement evaluated at the Ann/Lee table and
its returned element. -/
theorem claim_C6_witness :
    hasGender
        [⟨2000, "Ann".toList, "F".toList, 100000⟩,
         ⟨2000, "Lee".toList, "M".toList, 60000⟩,
         ⟨2000, "Lee".toList, "F".toList, 60000⟩]
        ("Lee".toList, 60000, 60000).1 "M".toList = true ∧
    hasGender
        [⟨2000, "Ann".toList, "F".toList, 100000⟩,
         ⟨2000, "Lee".toList, "M".toList, 60000⟩,
         ⟨2000, "Lee".toList, "F".toList, 60000⟩]
        ("Lee".toList, 60000, 60000).1 "F".toList = true ∧
    (("Lee".toList, 60000, 60000) : Str × Nat × Nat).2.1
      = cellSum
        [⟨2000, "Ann".toList, "F".toList, 100000⟩,
         ⟨2000, "Lee".toList, "M".toList, 60000⟩,
         ⟨2000, "Lee".toList, "F".toList, 60000⟩]
        ("Lee".toList, 60000, 60000).1 "M".toList ∧
    (("Lee".toList, 60000, 60000) : Str × Nat × Nat).2.2
      = cellSum
        [⟨2000, "Ann".toList, "F".toList, 100000⟩,
         ⟨2000, "Lee".toList, "M".toList, 60000⟩,
         ⟨2000, "Lee".toList, "F".toList, 60000⟩]
        ("Lee".toList, 60000, 60000).1 "F".toList ∧
    50000 ≤ (("Lee".toList, 60000, 60000) : Str × Nat × Nat).2.1 ∧
    50000 ≤ (("Lee".toList, 60000, 60000) : Str × Nat × Nat).2.2 :=
  claim_C6.1 _ [("Lee".toList, 60000, 60000)] (by decide) _
    (List.mem_cons_self _ _)

/-- C7: in a year whose pivot-column total is positive every name's
percentage equals its pivot value divided by the column total times 100
and these percentages sum to exactly 100 over the pivot's name index,
while a zero-total column produces NaN cells (`none`) without raising any
division error. -/
theorem claim_C7 :
    ∀ (t : List Record) (y : Nat),
      (0 < colTotal t y →
        (∀ n : Str, percentage t n y
            = some ((pivotVal t n y : ℚ) / (colTotal t y : ℚ) * 100)) ∧
        ((sortNames (distinctNames t)).map fun n =>
            (pivotVal t n y : ℚ) / (colTotal t y : ℚ) * 100).sum = 100) ∧
      (colTotal t y = 0 → ∀ n : Str, percentage t n y = none) := by
  intro t y
  constructor
  · intro hpos
    have hne : colTotal t y ≠ 0 := Nat.pos_iff_ne_zero.mp hpos
    have hneQ : ((colTotal t y : ℚ)) ≠ 0 := Nat.cast_ne_zero.mpr hne
    constructor
    · intro n
      rw [percentage, if_neg hne]
    · have hfun : (fun n => (pivotVal t n y : ℚ) / (colTotal t y : ℚ) * 100)
          = fun n => (pivotVal t n y : ℚ) * (100 / (colTotal t y : ℚ)) := by
        funext n
        rw [div_mul_eq_mul_div, mul_div_assoc]
      rw [hfun, List.sum_map_mul_right]
      have hcast : ((sortNames (distinctNames t)).map
            fun n => (pivotVal t n y : ℚ)).sum = (colTotal t y : ℚ) := by
        rw [colTotal, Nat.cast_list_sum, List.map_map]
        rfl
      rw [hcast, mul_div_cancel₀ 100 hneQ]
  · intro hzero n
    rw [percentage, if_pos hzero]

/-- C7 witness: on a single-record table the per-year percentages sum to
100, and on an all-zero-count year the computation yields NaN (`none`)
for every cell instead of failing. -/
theorem claim_C7_witness :
    ((sortNames (distinctNames [⟨2000, "Ann".toList, "F".toList, 10⟩])).map
        fun n => (pivotVal [⟨2000, "Ann".toList, "F".toList, 10⟩] n 2000 : ℚ)
          / (colTotal [⟨2000, "Ann".toList, "F".toList, 10⟩] 2000 : ℚ)
          * 100).sum = 100 ∧
    percentage [⟨2000, "Ann".toList, "F".toList, 0⟩] "Ann".toList 2000
      = none :=
  ⟨((claim_C7 [⟨2000, "Ann".toList, "F".toList, 10⟩] 2000).1 (by decide)).2,
   (claim_C7 [⟨2000, "Ann".toList, "F".toList, 0⟩] 2000).2 (by decide)
     "Ann".toList⟩

end BabyNames
